import Mathlib

/-!
Shallow embedding of the TTS text pipeline in `gptme/tools/tts.py`.

Strings are modelled as `List Char` (Python strings are sequences of code
points; `len` is the list length).  Python's `str.strip()` and the regex
class `\s` are modelled over the ASCII whitespace characters
`' ', '\t', '\n', '\r', '\x0b', '\x0c'`.  Each regex used by the source is
compiled by hand into a deterministic scanner that reproduces Python's
leftmost-match, greedy/lazy and backtracking behaviour on the relevant
patterns; the derivations are noted at each definition.
-/

/-- Python `str.isspace` / regex `\s` over ASCII. -/
def isPyWS (c : Char) : Bool :=
  c == ' ' || c == '\t' || c == '\n' || c == '\r' || c == '\x0b' || c == '\x0c'

/-- Python `str.strip()` (no arguments): drop leading and trailing whitespace. -/
def pyStrip (l : List Char) : List Char :=
  ((l.dropWhile isPyWS).reverse.dropWhile isPyWS).reverse

/-- Python `str.lstrip()`. -/
def pyLStrip (l : List Char) : List Char := l.dropWhile isPyWS

/-- Sentence-terminal punctuation of `sentence_end = re.compile(r"([.!?])(?:\s+|$)")`. -/
def isPunctC (c : Char) : Bool := c == '.' || c == '!' || c == '?'

/-- Python `str.split("\n")`: keeps empty parts. -/
def splitNLGo (acc : List Char) : List Char → List (List Char)
  | [] => [acc.reverse]
  | c :: cs => if c == '\n' then acc.reverse :: splitNLGo [] cs else splitNLGo (c :: acc) cs

def splitNL (l : List Char) : List (List Char) := splitNLGo [] l

/-- Python `str.split("\n\n")`: split on non-overlapping occurrences, left to right. -/
def splitParasGo (acc : List Char) : List Char → List (List Char)
  | '\n' :: '\n' :: rest => acc.reverse :: splitParasGo [] rest
  | c :: cs => splitParasGo (c :: acc) cs
  | [] => [acc.reverse]

def splitParas (l : List Char) : List (List Char) := splitParasGo [] l

/-- State for the `protect_decimals` scanner (`re.sub(r"(\d+)\.(\d+)", r"\1@\2", text)`):
`fresh` = previous char is not a digit; `run` = previous char is a digit usable as the
`\d+` before a `.`; `used` = previous char is a digit already consumed by an earlier
match (Python's `re.sub` continues scanning after the whole match, so such digits
cannot serve as the integer part of a later match). -/
inductive PState where
  | fresh
  | run
  | used
deriving DecidableEq

/-- Scanner for `protect_decimals`: replaces the `.` of each non-overlapping
`\d+\.\d+` match with `@`, exactly as Python's `re.sub` does. -/
def protectGo (st : PState) : List Char → List Char
  | '.' :: d :: rest =>
    if st = .run && d.isDigit then '@' :: protectGo .used (d :: rest)
    else '.' :: protectGo .fresh (d :: rest)
  | c :: cs =>
    if c.isDigit then c :: protectGo (if st = .used then .used else .run) cs
    else c :: protectGo .fresh cs
  | [] => []

/-- Source: `protect_decimals(text)` from the source. -/
def protectD (l : List Char) : List Char := protectGo .fresh l

/-- Source: `restore_decimals(text)`: `text.replace("@", ".")`. -/
def restoreD (l : List Char) : List Char := l.map (fun c => if c == '@' then '.' else c)

/-- Source: `re.split(r"([.!?])(?:\s+|$)", s)` as a scanner.  `ws = true` means the scanner is
consuming the separator's `\s+` run (the accumulator is empty there).  The captured
punctuation char is kept as its own part, separator whitespace is dropped, and a
terminal match against `$` produces a trailing empty part, as `re.split` does. -/
def spGo (ws : Bool) (acc : List Char) : List Char → List (List Char)
  | [] => if ws then [[]] else [acc.reverse]
  | c :: cs =>
    if ws && isPyWS c then spGo true [] cs
    else if isPunctC c then
      match cs with
      | [] => [acc.reverse, [c], []]
      | d :: _ =>
        if isPyWS d then acc.reverse :: [c] :: spGo true [] cs
        else spGo false (c :: acc) cs
    else spGo false (c :: acc) cs

/-- The `while i < len(parts)` loop of `split_sentences`: strip each part, skip empty
parts (which shifts the text/punctuation parity, exactly as in the source), restore
decimals on the part, and append the following raw part as its punctuation. -/
def assemble : List (List Char) → List (List Char)
  | [] => []
  | p :: rest =>
    if (pyStrip p).isEmpty then assemble rest
    else
      match rest with
      | [] => [restoreD (pyStrip p)]
      | q :: rest2 => (restoreD (pyStrip p) ++ q) :: assemble rest2

/-- Source: `split_sentences(text)` from the source. -/
def splitSentL (l : List Char) : List (List Char) :=
  (assemble (spGo false [] (protectD l))).filter (fun s => !(pyStrip s).isEmpty)

/-- Source: `is_list_item(text)`: `re.compile(r"^(?:\d+\.|-|\*)\s+").match(text.strip())`.
Backtracking analysis: `\d+` greedy takes the maximal digit run; shorter runs end at a
digit, never at `.`, so no backtracking succeeds when the maximal run fails. -/
def isListItem (l : List Char) : Bool :=
  match pyStrip l with
  | '-' :: c :: _ => isPyWS c
  | '*' :: c :: _ => isPyWS c
  | t =>
    if (t.takeWhile Char.isDigit).isEmpty then false
    else
      match t.dropWhile Char.isDigit with
      | '.' :: c :: _ => isPyWS c
      | _ => false

/-- Source: `decimal_pattern.match(line)` with `decimal_pattern = re.compile(r"\d+\.\d+")`:
`re.match` anchors at the start only, so this is a prefix test. -/
def decimalStart (l : List Char) : Bool :=
  if (l.takeWhile Char.isDigit).isEmpty then false
  else
    match l.dropWhile Char.isDigit with
    | '.' :: c :: _ => c.isDigit
    | _ => false

/-- Python `text.replace("*", "-", 1)`. -/
def replaceFirstStar : List Char → List Char
  | [] => []
  | c :: cs => if c == '*' then '-' :: cs else c :: replaceFirstStar cs

/-- Source: `convert_list_item(text)` from the source. -/
def convertListItem (l : List Char) : List Char :=
  match pyStrip l with
  | '*' :: t => replaceFirstStar ('*' :: t)
  | t => t

/-- Python `line.rstrip(".")`: remove all trailing `.` characters. -/
def rstripDots (l : List Char) : List Char := (l.reverse.dropWhile (· == '.')).reverse

/-- Source: `line.strip().endswith(".")`. -/
def endsDot (l : List Char) : Bool :=
  match l.getLast? with
  | some c => c == '.'
  | none => false

/-- Source: `all(line.strip().endswith(".") for line in lines if line.strip())`. -/
def allPeriods (lines : List (List Char)) : Bool :=
  lines.all (fun x => (pyStrip x).isEmpty || endsDot (pyStrip x))

/-- Body of the per-line branch of `split_text` (the line is already stripped and
non-empty): list items, lines starting with a decimal, and sentence splitting. -/
def lineChunks (allP : Bool) (line : List Char) : List (List Char) :=
  if isListItem line then [convertListItem (if allP then rstripDots line else line)]
  else if decimalStart line then [line]
  else splitSentL line

/-- The per-paragraph loop of `split_text`. -/
def processParagraph (p : List Char) : List (List Char) :=
  let lines := splitNL p
  ((lines.map pyStrip).filter (fun l => !l.isEmpty)).flatMap (lineChunks (allPeriods lines))

/-- The `while result and not result[-1]: result.pop()` loop. -/
def dropTrailingEmpty (l : List (List Char)) : List (List Char) :=
  (l.reverse.dropWhile List.isEmpty).reverse

/-- Source: `split_text(text)` from the source, on `List Char`.  Note the paragraph-break
sentinel is appended when the paragraph's *text* differs from the last paragraph's
text (`paragraph != paragraphs[-1]` compares values in Python). -/
def splitTextL (s : List Char) : List (List Char) :=
  let paras := ((splitParas s).map pyStrip).filter (fun p => !p.isEmpty)
  let lastP := paras.getLastD []
  dropTrailingEmpty (paras.flatMap (fun p => processParagraph p ++ if p == lastP then [] else [[]]))

/-- Source: `split_text` on `String`. -/
def split_text (s : String) : List String := (splitTextL s.data).map List.asString

/-- The accumulator loop of `join_short_sentences`. -/
def joinGo (minL : ℕ) (maxL : Option ℕ) (current : List Char) :
    List (List Char) → List (List Char)
  | [] => if current.isEmpty then [] else [current]
  | s :: rest =>
    if (pyStrip s).isEmpty then
      (if current.isEmpty then [s] else [current, s]) ++ joinGo minL maxL [] rest
    else if current.isEmpty then joinGo minL maxL s rest
    else
      let combined := current ++ ' ' :: pyLStrip s
      match maxL with
      | some m =>
        if combined.length ≤ m then joinGo minL maxL combined rest
        else current :: joinGo minL maxL s rest
      | none =>
        if combined.length ≤ minL then joinGo minL maxL combined rest
        else current :: joinGo minL maxL s rest

/-- Source: `join_short_sentences(sentences, min_length, max_length)` from the source. -/
def join_short_sentences (sentences : List String) (minLength : ℕ) (maxLength : Option ℕ) :
    List String :=
  (joinGo minLength maxLength [] (sentences.map String.data)).map List.asString

/-- The backtick character (written by code point to keep it out of the source text). -/
def btC : Char := Char.ofNat 96

/-- Opening tag of `re_thinking = re.compile(r"<think(ing)?>.*?(\n</think(ing)?>|$)", DOTALL)`:
greedy `(ing)?` tries `<thinking>` first, then `<think>`; the two are disjoint because the
7th character decides. Returns the remainder after the tag. -/
def tryThinkOpen (l : List Char) : Option (List Char) :=
  if l.take 10 = ['<', 't', 'h', 'i', 'n', 'k', 'i', 'n', 'g', '>'] then some (l.drop 10)
  else if l.take 7 = ['<', 't', 'h', 'i', 'n', 'k', '>'] then some (l.drop 7)
  else none

/-- Lazy search for `\n</think(ing)?>` or `$`.  Without MULTILINE, `$` matches at the end
of the string or just before a final newline; a final `'\n'` is therefore left in place
(the preceding content is consumed by the lazy `.*?`). Returns the remainder after the
match. -/
def thinkClose : List Char → List Char
  | '\n' :: '<' :: '/' :: 't' :: 'h' :: 'i' :: 'n' :: 'k' :: 'i' :: 'n' :: 'g' :: '>' :: rest => rest
  | '\n' :: '<' :: '/' :: 't' :: 'h' :: 'i' :: 'n' :: 'k' :: '>' :: rest => rest
  | ['\n'] => ['\n']
  | [] => []
  | _ :: cs => thinkClose cs

/-- Source: `re_thinking.sub("", content)`: fuel-driven leftmost scan (fuel = input length is
always sufficient since every step consumes at least one character). -/
def thinkGo : ℕ → List Char → List Char
  | 0, l => l
  | _ + 1, [] => []
  | fuel + 1, c :: cs =>
    match tryThinkOpen (c :: cs) with
    | some rest => thinkGo fuel (thinkClose rest)
    | none => c :: thinkGo fuel cs

def thinkSub (l : List Char) : List Char := thinkGo l.length l

/-- Characters of the fence info class `[\w\. ~/\-]` (`\w` over ASCII). -/
def isFenceInfoC (c : Char) : Bool :=
  c.isAlphanum || c == '_' || c == '.' || c == ' ' || c == '~' || c == '/' || c == '-'

/-- Lazy search for `\n` + three backticks, or `$` (end rule as in `thinkClose`). -/
def fenceClose : List Char → List Char
  | '\n' :: c1 :: c2 :: c3 :: rest =>
    if c1 == btC && c2 == btC && c3 == btC then rest
    else fenceClose (c1 :: c2 :: c3 :: rest)
  | ['\n'] => ['\n']
  | [] => []
  | _ :: cs => fenceClose cs

/-- One attempted match of `re_tool_use = re.compile(r"```[\w\. ~/\-]+\n(.*?)(\n```|$)",
DOTALL)` at the current position: three backticks, a nonempty info run, a newline, then
the lazy close.  The info class excludes `\n`, so no backtracking can succeed when the
maximal run is not followed by `\n`. Returns the remainder after the whole match. -/
def tryFence (l : List Char) : Option (List Char) :=
  match l with
  | c1 :: c2 :: c3 :: rest =>
    if c1 == btC && c2 == btC && c3 == btC then
      if (rest.takeWhile isFenceInfoC).isEmpty then none
      else
        match rest.dropWhile isFenceInfoC with
        | '\n' :: body => some (fenceClose body)
        | _ => none
    else none
  | _ => none

/-- Source: `re_tool_use.sub("", content)`. -/
def fenceGo : ℕ → List Char → List Char
  | 0, l => l
  | _ + 1, [] => []
  | fuel + 1, c :: cs =>
    match tryFence (c :: cs) with
    | some rest => fenceGo fuel rest
    | none => c :: fenceGo fuel cs

def toolSub (l : List Char) : List Char := fenceGo l.length l

/-- One attempted match of `re_markdown_header = re.compile(r"^(#+)\s+(.*?)$", MULTILINE)`
at a line start: a greedy run of `#`, a greedy (possibly multi-line, since `\s` includes
`\n`) whitespace run, then the lazy rest-of-line capture; `$` ends the match before the
line's newline.  Returns (capture, remainder). -/
def tryHeader (l : List Char) : Option (List Char × List Char) :=
  match l with
  | '#' :: _ =>
    let r1 := l.dropWhile (· == '#')
    if (r1.takeWhile isPyWS).isEmpty then none
    else
      let r2 := r1.dropWhile isPyWS
      some (r2.takeWhile (fun c => !(c == '\n')), r2.dropWhile (fun c => !(c == '\n')))
  | _ => none

/-- Source: `re_markdown_header.sub(r"\2", content)`: `^` matches at the string start and after
each newline; inside a line no match can start, so the scanner carries a line-start flag. -/
def headerGo : ℕ → Bool → List Char → List Char
  | 0, _, l => l
  | _ + 1, _, [] => []
  | fuel + 1, atStart, c :: cs =>
    if atStart then
      match tryHeader (c :: cs) with
      | some (captured, rest) => captured ++ headerGo fuel false rest
      | none => c :: headerGo fuel (c == '\n') cs
    else c :: headerGo fuel (c == '\n') cs

def headerSub (l : List Char) : List Char := headerGo l.length true l

/-- Lazy search for the closing `**` of `\*\*(.*?)\*\*` (no DOTALL: `.` excludes `\n`).
Returns (content between the markers, remainder after the close). -/
def boldClose : List Char → Option (List Char × List Char)
  | '*' :: '*' :: rest => some ([], rest)
  | '\n' :: _ => none
  | [] => none
  | c :: cs =>
    match boldClose cs with
    | some (inner, after) => some (c :: inner, after)
    | none => none

/-- Source: `re.sub(r"\*\*(.*?)\*\*", r"\1", content)`: on failure the scan advances one
character (Python retries the pattern at the next position). -/
def boldGo : ℕ → List Char → List Char
  | 0, l => l
  | _ + 1, [] => []
  | fuel + 1, c :: cs =>
    match c :: cs with
    | '*' :: '*' :: rest =>
      match boldClose rest with
      | some (inner, after) => inner ++ boldGo fuel after
      | none => c :: boldGo fuel cs
    | _ => c :: boldGo fuel cs

def boldSub (l : List Char) : List Char := boldGo l.length l

/-- Lazy search for the `)` of `\(.*?\)` (no DOTALL). -/
def parenClose : List Char → Option (List Char)
  | ')' :: rest => some rest
  | '\n' :: _ => none
  | [] => none
  | _ :: cs => parenClose cs

/-- Source: `re.sub(r"\(.*?\)", "", content)`. -/
def parenGo : ℕ → List Char → List Char
  | 0, l => l
  | _ + 1, [] => []
  | fuel + 1, c :: cs =>
    if c == '(' then
      match parenClose cs with
      | some after => parenGo fuel after
      | none => c :: parenGo fuel cs
    else c :: parenGo fuel cs

def parenSub (l : List Char) : List Char := parenGo l.length l

/-- The `emoji_pattern` character class of the source. -/
def isEmojiC (c : Char) : Bool :=
  (0x1F600 ≤ c.toNat && c.toNat ≤ 0x1F64F) ||
  (0x1F300 ≤ c.toNat && c.toNat ≤ 0x1F5FF) ||
  (0x1F680 ≤ c.toNat && c.toNat ≤ 0x1F6FF) ||
  (0x1F1E0 ≤ c.toNat && c.toNat ≤ 0x1F1FF) ||
  (0x1F900 ≤ c.toNat && c.toNat ≤ 0x1F9FF) ||
  c == '✅' || c == '🤖' || c == '✨'

/-- Source: `emoji_pattern.sub("", content)`: removing maximal runs of class characters is the
same as filtering the class characters out. -/
def emojiSub (l : List Char) : List Char := l.filter (fun c => !isEmojiC c)

/-- Source: `clean_for_speech(content)` from the source: the six substitutions in source order,
then `strip()`. -/
def cleanL (l : List Char) : List Char :=
  pyStrip (emojiSub (parenSub (boldSub (headerSub (toolSub (thinkSub l))))))

def clean_for_speech (s : String) : String := (cleanL s.data).asString

/-- PCM sample formats as classified by the worker: `data.dtype != np.float32`, then
`dtype.kind` (`"i"` signed integer, `"f"` floating point; any other kind, e.g. the
unsigned `"u"` of 8-bit WAV, falls through both branches). -/
inductive PcmType where
  | signedInt (bits : ℕ)
  | unsignedInt (bits : ℕ)
  | float32
  | float64
deriving DecidableEq

/-- Source: `np.iinfo(dtype).max` for a signed `bits`-bit integer format, as a rational. -/
def intMaxQ (bits : ℕ) : ℚ := 2 ^ (bits - 1) - 1

/-- Source: `np.max(np.abs(data))` (0 on the empty buffer, which `np.max` would reject). -/
def peakAbs (data : List ℚ) : ℚ := data.foldr (fun x m => max |x| m) 0

/-- The normalization step of `_tts_processor_thread_fn`, with samples as rationals:
float32 input skips the whole block; signed integers are divided by `iinfo.max`;
other floats are divided by the peak only when the peak exceeds 1; unsigned integers
match neither `kind` branch and pass through. -/
def normalizeWav (dt : PcmType) (data : List ℚ) : List ℚ :=
  match dt with
  | .float32 => data
  | .signedInt bits => data.map (fun x => x / intMaxQ bits)
  | .float64 =>
    if 1 < peakAbs data then data.map (fun x => x / peakAbs data) else data
  | .unsignedInt _ => data

/-- The sequential steps of `speak`: cleaning, the `log.info` call, the `stop()` call
for `interrupt=True`, then the body of the `try` block (splitting, joining, the
pronunciation fix-up, `ensure_threads`, enqueueing, and the blocking joins). -/
inductive SpeakStep where
  | cleanText
  | logLen
  | stopCall
  | chunkSplit
  | chunkJoin
  | pronounce
  | ensureWorkers
  | enqueueChunks
  | blockWait
deriving DecidableEq

/-- The `try` block of `speak` (steps inside `try: ... except Exception`): the first
failing step aborts the block with an error. -/
def speakTryBody (blockFlag : Bool) (fails : SpeakStep → Bool) : Except Unit Unit :=
  if fails .chunkSplit then .error ()
  else if fails .chunkJoin then .error ()
  else if fails .pronounce then .error ()
  else if fails .ensureWorkers then .error ()
  else if fails .enqueueChunks then .error ()
  else if blockFlag && fails .blockWait then .error ()
  else .ok ()

/-- Exception flow of `speak(text, block, interrupt, clean)`: `clean_for_speech`, the
`log.info` call and the `interrupt`-triggered `stop()` run **before** the `try`
block, so an exception there propagates; any exception inside the `try` block is
caught, logged and swallowed.  `fails` says which steps raise. -/
def speakModel (blockFlag interruptFlag cleanFlag : Bool) (fails : SpeakStep → Bool) :
    Except Unit Unit :=
  if cleanFlag && fails .cleanText then .error ()
  else if fails .logLen then .error ()
  else if interruptFlag && fails .stopCall then .error ()
  else
    match speakTryBody blockFlag fails with
    | .error _ => .ok ()
    | .ok _ => .ok ()

/-- Queue state shared by `stop()` and the workers: the audio queue (payload type α),
the TTS request queue (`None` is the stop sentinel), and whether the processor
thread is alive. -/
structure TtsState (α : Type) where
  audioQ : List α
  requestQ : List (Option String)
  alive : Bool

/-- Source: `stop()` from the source: `sd.stop()` (no queue effect), `clear_queue()` empties the
audio queue, the request queue is cleared under its mutex, and if the processor thread
is alive a `None` stop sentinel is `put` on the request queue followed by
`join(timeout=1)`.  The bounded join may or may not see the worker dequeue the
sentinel before the timeout; `consumes` selects which of the two outcomes occurred. -/
def stopModel (consumes : Bool) (st : TtsState α) : TtsState α :=
  let st2 : TtsState α := { st with audioQ := [], requestQ := [] }
  if st2.alive then
    if consumes then { st2 with requestQ := [], alive := false }
    else { st2 with requestQ := [Option.none] }
  else st2

/-- The joiner as claim C8 literally words it for a given maximum: only the genuinely
empty string is treated as a sentinel; every non-empty chunk is greedily merged. -/
def joinClaimGo (m : ℕ) (current : List Char) : List (List Char) → List (List Char)
  | [] => if current.isEmpty then [] else [current]
  | s :: rest =>
    if s.isEmpty then
      (if current.isEmpty then [s] else [current, s]) ++ joinClaimGo m [] rest
    else if current.isEmpty then joinClaimGo m s rest
    else
      let combined := current ++ ' ' :: pyLStrip s
      if combined.length ≤ m then joinClaimGo m combined rest
      else current :: joinClaimGo m s rest

def joinClaimLit (m : ℕ) (chunks : List String) : List String :=
  (joinClaimGo m [] (chunks.map String.data)).map List.asString

/-- The joiner as claim C8 amended: chunks that are empty **or whitespace-only** act as
sentinels (terminate the accumulation, pass through unmodified); other chunks are
greedily merged while the combined length stays within the maximum. -/
def joinAmendGo (m : ℕ) (current : List Char) : List (List Char) → List (List Char)
  | [] => if current.isEmpty then [] else [current]
  | s :: rest =>
    if (pyStrip s).isEmpty then
      (if current.isEmpty then [s] else [current, s]) ++ joinAmendGo m [] rest
    else if current.isEmpty then joinAmendGo m s rest
    else
      let combined := current ++ ' ' :: pyLStrip s
      if combined.length ≤ m then joinAmendGo m combined rest
      else current :: joinAmendGo m s rest

def joinAmended (m : ℕ) (chunks : List String) : List String :=
  (joinAmendGo m [] (chunks.map String.data)).map List.asString

/-- Fault assignment where only the `stop()` call raises. -/
def failsStopOnly : SpeakStep → Bool := fun s => s == .stopCall

/-- Fault assignment where every step inside the `try` block raises and the
steps before the `try` block succeed. -/
def failsTryOnly : SpeakStep → Bool := fun s =>
  match s with
  | .cleanText => false
  | .logLen => false
  | .stopCall => false
  | _ => true

/-- Characters that can begin a match of any of the six cleaning substitutions. -/
def isTriggerC (c : Char) : Bool :=
  c == '<' || c == btC || c == '#' || c == '*' || c == '(' || isEmojiC c

/-- Canonical view of a character for the no-character-loss property: the decimal
protection marker `@` and the period it stands for are identified. -/
def canonC (c : Char) : Char := if c == '@' then '.' else c

/-- The non-whitespace characters of a string, with `@` and `.` identified. -/
def cview (l : List Char) : List Char := (l.filter (fun c => !isPyWS c)).map canonC

/-! ## Claim C10: with a maximum length, `min_length` is irrelevant -/

theorem joinGo_min_irrelevant (M m1 m2 : ℕ) :
    ∀ (rest : List (List Char)) (current : List Char),
    joinGo m1 (some M) current rest = joinGo m2 (some M) current rest := by
  intro rest
  induction rest with
  | nil => intro current; rfl
  | cons s t ih =>
    intro current
    simp only [joinGo]
    by_cases h1 : (pyStrip s).isEmpty
    · simp only [h1, if_true, ih]
    · simp only [h1, if_false, Bool.false_eq_true]
      by_cases h2 : current.isEmpty
      · simp only [h2, if_true, ih]
      · simp only [h2, if_false, Bool.false_eq_true]
        by_cases h3 : (current ++ ' ' :: pyLStrip s).length ≤ M
        · simp only [h3, if_true, ih]
        · simp only [h3, if_false, ih]

/-- C10: when `max_length` is given, the output of `join_short_sentences` does not
depend on the `min_length` argument. -/
theorem c10_theorem (chunks : List String) (m1 m2 M : ℕ) :
    join_short_sentences chunks m1 (some M) = join_short_sentences chunks m2 (some M) := by
  unfold join_short_sentences
  rw [joinGo_min_irrelevant M m1 m2]

/-! ## Claim C1: `speak` never raises -/

/-- C1 counterexample: with `interrupt=True`, an exception raised by the `stop()` call
(step 2, before the `try` block) propagates out of `speak`, so `speak` does not catch
every exception arising inside the call. -/
theorem c1_counterexample :
    speakModel false true true failsStopOnly = .error () := rfl

/-- C1 amended: exceptions raised inside the `try` block of `speak` (splitting, joining,
the pronunciation fix-up, `ensure_threads`, enqueueing, the blocking joins) are always
caught and swallowed; `speak` can only raise when cleaning (step 1), the pre-`try`
logging call, or the `interrupt`-triggered `stop()` raises. -/
theorem c1_theorem (blockFlag interruptFlag cleanFlag : Bool) (fails : SpeakStep → Bool)
    (h1 : (cleanFlag && fails .cleanText) = false)
    (h2 : fails .logLen = false)
    (h3 : (interruptFlag && fails .stopCall) = false) :
    speakModel blockFlag interruptFlag cleanFlag fails = .ok () := by
  unfold speakModel
  rw [h1, h2, h3]
  simp only [if_false, Bool.false_eq_true]
  cases speakTryBody blockFlag fails <;> rfl

/-- C1 witness: every step inside the `try` block failing still yields a normal return. -/
theorem c1_witness :
    speakModel true true true failsTryOnly = .ok () :=
  c1_theorem true true true failsTryOnly rfl rfl rfl

/-! ## Claim C9: `stop()` leaves both queues empty -/

/-- C9 counterexample: if the processor thread is alive and does not dequeue the stop
sentinel within the bounded `join(timeout=1)` (e.g. it is blocked in a long HTTP
request), `stop()` returns with the `None` sentinel still on the request queue, so the
request queue is not empty. -/
theorem c9_counterexample :
    (stopModel false (⟨["buf"], [some "one", some "two"], true⟩ : TtsState String)).requestQ ≠ [] := by
  simp [stopModel]

/-- C9 amended: after `stop()` returns, the audio queue is empty and no chunk enqueued
before the call remains on either queue; the request queue holds at most the `None`
stop sentinel (left behind exactly when the alive synthesis worker does not exit within
the bounded join). -/
theorem c9_theorem {α : Type} (consumes : Bool) (st : TtsState α) :
    (stopModel consumes st).audioQ = [] ∧
    ∀ x ∈ (stopModel consumes st).requestQ, x = Option.none := by
  unfold stopModel
  by_cases ha : st.alive <;> by_cases hc : consumes <;> simp [ha, hc]

/-! ## Claim C5: normalized samples lie in [-1, 1] -/

/-- C5 counterexample: for 16-bit signed PCM the most negative sample `-32768` is divided
by `iinfo.max = 32767`, giving `-32768/32767 < -1`: the enqueued buffer contains a
sample outside `[-1, 1]`. -/
theorem c5_counterexample :
    ∃ x ∈ normalizeWav (PcmType.signedInt 16) [(-32768 : ℚ)], x < -1 := by
  refine ⟨-32768 / 32767, ?_, by norm_num⟩
  simp [normalizeWav, intMaxQ]
  norm_num

theorem peakAbs_nonneg (data : List ℚ) : 0 ≤ peakAbs data := by
  induction data with
  | nil => simp [peakAbs]
  | cons a t ih =>
    simp only [peakAbs, List.foldr]
    exact le_max_of_le_right ih

theorem le_peakAbs {data : List ℚ} {x : ℚ} (h : x ∈ data) : |x| ≤ peakAbs data := by
  induction data with
  | nil => cases h
  | cons a t ih =>
    rcases List.mem_cons.mp h with rfl | h
    · exact le_max_left _ _
    · exact le_trans (ih h) (le_max_right _ _)

/-- C5 amended: signed integer PCM is divided by the format's maximum and lands in
`[-(2^(bits-1))/(2^(bits-1)-1), 1]` — the most negative sample lands just below `-1`;
non-float32 floating PCM is peak-normalized into `[-1, 1]`; float32 input skips the
normalization block entirely, and unsigned PCM matches neither `dtype.kind` branch,
so both pass through unchanged. -/
theorem c5_theorem :
    (∀ (bits : ℕ), 2 ≤ bits → ∀ (data : List ℚ),
      (∀ x ∈ data, -(2 ^ (bits - 1) : ℚ) ≤ x ∧ x ≤ 2 ^ (bits - 1) - 1) →
      ∀ y ∈ normalizeWav (.signedInt bits) data,
        -(2 ^ (bits - 1) : ℚ) / (2 ^ (bits - 1) - 1) ≤ y ∧ y ≤ 1) ∧
    (∀ (data : List ℚ), ∀ y ∈ normalizeWav .float64 data, -1 ≤ y ∧ y ≤ 1) ∧
    (∀ (data : List ℚ), normalizeWav .float32 data = data) ∧
    (∀ (bits : ℕ) (data : List ℚ), normalizeWav (.unsignedInt bits) data = data) := by
  refine ⟨?_, ?_, fun _ => rfl, fun _ _ => rfl⟩
  · intro bits hb data hdata y hy
    simp only [normalizeWav, List.mem_map] at hy
    obtain ⟨x, hx, rfl⟩ := hy
    have h2 : (2 : ℚ) ≤ 2 ^ (bits - 1) := by
      calc (2 : ℚ) = 2 ^ 1 := (pow_one 2).symm
      _ ≤ 2 ^ (bits - 1) := by
        apply pow_le_pow_right₀ (by norm_num)
        omega
    have hM : (0 : ℚ) < 2 ^ (bits - 1) - 1 := by linarith
    have hMQ : intMaxQ bits = 2 ^ (bits - 1) - 1 := rfl
    constructor
    · rw [hMQ]
      exact div_le_div_of_nonneg_right (hdata x hx).1 hM.le
    · rw [hMQ]
      exact (div_le_one hM).mpr (by linarith [(hdata x hx).2])
  · intro data y hy
    simp only [normalizeWav] at hy
    by_cases hp : 1 < peakAbs data
    · rw [if_pos hp] at hy
      simp only [List.mem_map] at hy
      obtain ⟨x, hx, rfl⟩ := hy
      have h0 : 0 < peakAbs data := lt_trans one_pos hp
      have : |x / peakAbs data| ≤ 1 := by
        rw [abs_div, abs_of_pos h0]
        exact (div_le_one h0).mpr (le_peakAbs hx)
      exact abs_le.mp this
    · rw [if_neg hp] at hy
      have : |y| ≤ 1 := le_trans (le_peakAbs hy) (not_lt.mp hp)
      exact abs_le.mp this

/-- C5 witness: the theorem applied to a concrete int16 buffer and a concrete float
buffer. -/
theorem c5_witness :
    (-(2 : ℚ) ^ (16 - 1) / (2 ^ (16 - 1) - 1) ≤ -32768 / 32767 ∧ (-32768 : ℚ) / 32767 ≤ 1) ∧
    (-1 ≤ (1 : ℚ) / 2 ∧ (1 : ℚ) / 2 ≤ 1) := by
  constructor
  · apply c5_theorem.1 16 (by norm_num) [(-32768 : ℚ)] (by norm_num) (-32768 / 32767)
    simp [normalizeWav, intMaxQ]
    norm_num
  · apply c5_theorem.2.1 [(1 : ℚ) / 2] ((1 : ℚ) / 2)
    have hp : ¬ (1 : ℚ) < peakAbs [(1 : ℚ) / 2] := by
      norm_num [peakAbs, abs_of_nonneg]
    simp only [normalizeWav]
    rw [if_neg hp]
    exact List.mem_singleton.mpr rfl

/-! ## Claim C2: only a line that is solely a decimal number is emitted unsplit -/

/-- C2: the decimal check is `decimal_pattern.match(line)`, a *prefix* test, so the line
`"3.14 is pi. Yes."` — which is not solely a decimal number — is emitted as one unsplit
chunk instead of being sentence-split, contradicting both the claim and the source's
own comment "Handle decimal numbers without other text". -/
theorem c2_theorem : split_text "3.14 is pi. Yes." = ["3.14 is pi. Yes."] := rfl

/-! ## Claim C3: one sentinel after every paragraph except the last -/

/-- C3: the sentinel condition is `paragraph != paragraphs[-1]`, a comparison of
paragraph *text*, so a non-final paragraph equal to the last paragraph gets no
sentinel: for `"a\n\nb\n\na"` the break between the first two paragraphs is lost
(the claim requires `["a", "", "b", "", "a"]`), contradicting the source's own
comment "Add paragraph break if not the last paragraph". -/
theorem c3_theorem : split_text "a\n\nb\n\na" = ["a", "b", "", "a"] := rfl

/-! ## Claim C8: greedy max-length joiner -/

/-- C8 counterexample: the source treats *whitespace-only* chunks like sentinels
(`if not sentence.strip()`), while the claim merges every non-empty chunk; on
`["a", " ", "b"]` the code returns the three chunks unmerged, whereas the claim's
described algorithm merges them into one chunk. -/
theorem c8_counterexample :
    join_short_sentences ["a", " ", "b"] 100 (some 300) ≠ joinClaimLit 300 ["a", " ", "b"] := by
  decide

theorem joinGo_eq_amend (M m : ℕ) :
    ∀ (rest : List (List Char)) (current : List Char),
    joinGo m (some M) current rest = joinAmendGo M current rest := by
  intro rest
  induction rest with
  | nil => intro current; rfl
  | cons s t ih =>
    intro current
    simp only [joinGo, joinAmendGo]
    by_cases h1 : (pyStrip s).isEmpty
    · simp only [h1, if_true, ih]
    · simp only [h1, if_false, Bool.false_eq_true]
      by_cases h2 : current.isEmpty
      · simp only [h2, if_true, ih]
      · simp only [h2, if_false, Bool.false_eq_true]
        by_cases h3 : (current ++ ' ' :: pyLStrip s).length ≤ M
        · simp only [h3, if_true, ih]
        · simp only [h3, if_false, ih]

/-- C8 amended: with a maximum length, `join_short_sentences` is exactly the greedy
single-pass merge described by the claim, except that chunks that are empty *or
whitespace-only* act as sentinels: they terminate the current accumulation and pass
through unmodified at their position.  On chunk lengths [10,10,10] with maximum 25
it produces two chunks, the first merging the first two inputs. -/
theorem c8_theorem :
    (∀ (chunks : List String) (m M : ℕ),
      join_short_sentences chunks m (some M) = joinAmended M chunks) ∧
    join_short_sentences ["aaaaaaaaaa", "bbbbbbbbbb", "cccccccccc"] 100 (some 25) =
      ["aaaaaaaaaa bbbbbbbbbb", "cccccccccc"] := by
  constructor
  · intro chunks m M
    unfold join_short_sentences joinAmended
    rw [joinGo_eq_amend M m]
  · rfl

/-! ## Claim C6: `clean_for_speech` idempotence -/

set_option maxHeartbeats 8000000 in
/-- C6 counterexample: on `"*(x)*hello**"` the first pass removes the parenthesized
span `(x)`, creating the new emphasis markup `**hello**` (the bold pass runs *before*
the paren pass), which only the second pass removes — cleaning is not idempotent. -/
theorem c6_counterexample :
    clean_for_speech (clean_for_speech "*(x)*hello**") ≠ clean_for_speech "*(x)*hello**" := by
  have h1 : clean_for_speech "*(x)*hello**" = "**hello**" := by decide
  have h2 : clean_for_speech "**hello**" = "hello" := by decide
  rw [h1, h2]
  decide

theorem tryThinkOpen_none {c : Char} {cs : List Char} (h : ¬ c = '<') :
    tryThinkOpen (c :: cs) = none := by
  simp [tryThinkOpen, List.take_succ_cons, h]

theorem thinkGo_id {l : List Char} (h : ∀ c ∈ l, ¬ c = '<') :
    ∀ fuel, l.length ≤ fuel → thinkGo fuel l = l := by
  induction l with
  | nil => intro fuel _; cases fuel <;> rfl
  | cons c cs ih =>
    intro fuel hlen
    cases fuel with
    | zero => simp at hlen
    | succ n =>
      simp only [thinkGo, tryThinkOpen_none (h c (List.mem_cons_self c cs))]
      rw [ih (fun x hx => h x (List.mem_cons_of_mem c hx)) n (by simpa using hlen)]

theorem tryFence_none {c : Char} {cs : List Char} (h : ¬ c = btC) :
    tryFence (c :: cs) = none := by
  unfold tryFence
  split <;> simp_all

theorem fenceGo_id {l : List Char} (h : ∀ c ∈ l, ¬ c = btC) :
    ∀ fuel, l.length ≤ fuel → fenceGo fuel l = l := by
  induction l with
  | nil => intro fuel _; cases fuel <;> rfl
  | cons c cs ih =>
    intro fuel hlen
    cases fuel with
    | zero => simp at hlen
    | succ n =>
      simp only [fenceGo, tryFence_none (h c (List.mem_cons_self c cs))]
      rw [ih (fun x hx => h x (List.mem_cons_of_mem c hx)) n (by simpa using hlen)]

theorem tryHeader_none {c : Char} {cs : List Char} (h : ¬ c = '#') :
    tryHeader (c :: cs) = none := by
  unfold tryHeader
  split <;> simp_all

theorem headerGo_id {l : List Char} (h : ∀ c ∈ l, ¬ c = '#') :
    ∀ fuel flag, l.length ≤ fuel → headerGo fuel flag l = l := by
  induction l with
  | nil => intro fuel flag _; cases fuel <;> rfl
  | cons c cs ih =>
    intro fuel flag hlen
    cases fuel with
    | zero => simp at hlen
    | succ n =>
      have hrec := ih (fun x hx => h x (List.mem_cons_of_mem c hx)) n (c == '\n') (by simpa using hlen)
      cases flag with
      | true =>
        simp only [headerGo, tryHeader_none (h c (List.mem_cons_self c cs)), if_true]
        rw [hrec]
      | false =>
        simp only [headerGo, Bool.false_eq_true, if_false]
        rw [hrec]

theorem boldGo_id {l : List Char} (h : ∀ c ∈ l, ¬ c = '*') :
    ∀ fuel, l.length ≤ fuel → boldGo fuel l = l := by
  induction l with
  | nil => intro fuel _; cases fuel <;> rfl
  | cons c cs ih =>
    intro fuel hlen
    cases fuel with
    | zero => simp at hlen
    | succ n =>
      have hrec := ih (fun x hx => h x (List.mem_cons_of_mem c hx)) n (by simpa using hlen)
      have hc : ¬ c = '*' := h c (List.mem_cons_self c cs)
      simp only [boldGo]
      split
      · simp_all
      · rw [hrec]

theorem parenGo_id {l : List Char} (h : ∀ c ∈ l, ¬ c = '(') :
    ∀ fuel, l.length ≤ fuel → parenGo fuel l = l := by
  induction l with
  | nil => intro fuel _; cases fuel <;> rfl
  | cons c cs ih =>
    intro fuel hlen
    cases fuel with
    | zero => simp at hlen
    | succ n =>
      have hrec := ih (fun x hx => h x (List.mem_cons_of_mem c hx)) n (by simpa using hlen)
      have hc : (c == '(') = false := by
        simpa using h c (List.mem_cons_self c cs)
      simp only [parenGo, hc, if_false, Bool.false_eq_true]
      rw [hrec]

theorem dropWhile_eq_self_of_head {p : α → Bool} {l : List α}
    (h : ∀ c, l.head? = some c → p c = false) : l.dropWhile p = l := by
  cases l with
  | nil => rfl
  | cons a t => simp [List.dropWhile, h a rfl]

theorem head?_dropWhile_false (p : α → Bool) (l : List α) :
    ∀ c, (l.dropWhile p).head? = some c → p c = false := by
  induction l with
  | nil => intro c hc; simp [List.dropWhile] at hc
  | cons a t ih =>
    intro c hc
    by_cases hp : p a
    · rw [List.dropWhile_cons_of_pos hp] at hc
      exact ih c hc
    · rw [List.dropWhile_cons_of_neg hp] at hc
      simp at hc
      rw [← hc]
      simpa using hp

theorem mem_of_mem_dropWhile {p : α → Bool} {l : List α} {a : α}
    (h : a ∈ l.dropWhile p) : a ∈ l := by
  induction l with
  | nil => simp [List.dropWhile] at h
  | cons b t ih =>
    by_cases hp : p b
    · rw [List.dropWhile_cons_of_pos hp] at h
      exact List.mem_cons_of_mem b (ih h)
    · rwa [List.dropWhile_cons_of_neg hp] at h

theorem getLast?_dropWhile (p : α → Bool) (l : List α) (h : l.dropWhile p ≠ []) :
    (l.dropWhile p).getLast? = l.getLast? := by
  induction l with
  | nil => simp [List.dropWhile] at h
  | cons a t ih =>
    by_cases hp : p a
    · rw [List.dropWhile_cons_of_pos hp] at h ⊢
      rw [ih h]
      have ht : t ≠ [] := by
        intro he
        subst he
        simp [List.dropWhile] at h
      have hg : (a :: t).getLast? = t.getLast? := by
        cases t with
        | nil => exact absurd rfl ht
        | cons b u => simp
      rw [hg]
    · rw [List.dropWhile_cons_of_neg hp]

theorem pyStrip_head (l : List Char) :
    ∀ c, (pyStrip l).head? = some c → isPyWS c = false := by
  intro c hc
  unfold pyStrip at hc
  rw [List.head?_reverse] at hc
  set X := ((l.dropWhile isPyWS).reverse).dropWhile isPyWS with hX
  by_cases hne : X = []
  · rw [hne] at hc; simp at hc
  · rw [getLast?_dropWhile isPyWS _ hne, List.getLast?_reverse] at hc
    exact head?_dropWhile_false isPyWS l c hc

theorem pyStrip_last (l : List Char) :
    ∀ c, (pyStrip l).getLast? = some c → isPyWS c = false := by
  intro c hc
  unfold pyStrip at hc
  rw [List.getLast?_reverse] at hc
  exact head?_dropWhile_false isPyWS _ c hc

theorem pyStrip_idem (l : List Char) : pyStrip (pyStrip l) = pyStrip l := by
  conv_lhs => rw [pyStrip]
  rw [dropWhile_eq_self_of_head (pyStrip_head l)]
  rw [dropWhile_eq_self_of_head (fun c hc => pyStrip_last l c (by rwa [List.head?_reverse] at hc))]
  exact List.reverse_reverse _

theorem mem_pyStrip {l : List Char} {c : Char} (h : c ∈ pyStrip l) : c ∈ l := by
  unfold pyStrip at h
  rw [List.mem_reverse] at h
  have h2 := mem_of_mem_dropWhile h
  rw [List.mem_reverse] at h2
  exact mem_of_mem_dropWhile h2

theorem trigger_split {l : List Char} (h : ∀ c ∈ l, isTriggerC c = false) :
    ∀ c ∈ l, ¬ c = '<' ∧ ¬ c = btC ∧ ¬ c = '#' ∧ ¬ c = '*' ∧ ¬ c = '(' ∧ isEmojiC c = false := by
  intro c hc
  have hh := h c hc
  simp [isTriggerC] at hh
  tauto

theorem cleanL_eq_strip {l : List Char} (h : ∀ c ∈ l, isTriggerC c = false) :
    cleanL l = pyStrip l := by
  have hs := trigger_split h
  unfold cleanL thinkSub toolSub headerSub boldSub parenSub
  rw [thinkGo_id (fun c hc => (hs c hc).1) l.length le_rfl]
  rw [fenceGo_id (fun c hc => (hs c hc).2.1) l.length le_rfl]
  rw [headerGo_id (fun c hc => (hs c hc).2.2.1) l.length true le_rfl]
  rw [boldGo_id (fun c hc => (hs c hc).2.2.2.1) l.length le_rfl]
  rw [parenGo_id (fun c hc => (hs c hc).2.2.2.2.1) l.length le_rfl]
  have he : emojiSub l = l := by
    unfold emojiSub
    apply List.filter_eq_self.mpr
    intro c hc
    simp [(hs c hc).2.2.2.2.2]
  rw [he]

/-- C6 amended: `clean_for_speech` is not idempotent in general (see the
counterexample), but it is idempotent on text free of the markup trigger characters
`<`, backtick, `#`, `*`, `(` and emoji — on such text a single pass only strips
surrounding whitespace. -/
theorem c6_theorem (s : String) (h : ∀ c ∈ s.data, isTriggerC c = false) :
    clean_for_speech (clean_for_speech s) = clean_for_speech s := by
  show (cleanL ((cleanL s.data).asString).data).asString = (cleanL s.data).asString
  have hd : ((cleanL s.data).asString).data = cleanL s.data := rfl
  rw [hd, cleanL_eq_strip h]
  have h2 : ∀ c ∈ pyStrip s.data, isTriggerC c = false := fun c hc => h c (mem_pyStrip hc)
  rw [cleanL_eq_strip h2, pyStrip_idem]

/-- C6 witness: the amended idempotence applied to concrete trigger-free text. -/
theorem c6_witness :
    clean_for_speech (clean_for_speech "hello there. a test!") = clean_for_speech "hello there. a test!" :=
  c6_theorem "hello there. a test!" (by decide)

/-! ## Claim C7: list-item handling -/

theorem mem_dropWhile_of_ne {p : α → Bool} {l : List α} {a : α}
    (h : a ∈ l) (hp : p a = false) : a ∈ l.dropWhile p := by
  induction l with
  | nil => cases h
  | cons b t ih =>
    by_cases hb : p b
    · rw [List.dropWhile_cons_of_pos hb]
      rcases List.mem_cons.mp h with rfl | h2
      · rw [hb] at hp; cases hp
      · exact ih h2
    · rwa [List.dropWhile_cons_of_neg hb]

theorem mem_pyStrip_of_ne {l : List Char} {a : Char}
    (h : a ∈ l) (hp : isPyWS a = false) : a ∈ pyStrip l := by
  unfold pyStrip
  rw [List.mem_reverse]
  apply mem_dropWhile_of_ne _ hp
  rw [List.mem_reverse]
  exact mem_dropWhile_of_ne h hp

theorem mem_rstripDots {l : List Char} {a : Char}
    (h : a ∈ l) (hp : ¬ a = '.') : a ∈ rstripDots l := by
  unfold rstripDots
  rw [List.mem_reverse]
  apply mem_dropWhile_of_ne
  · rwa [List.mem_reverse]
  · simpa using hp

theorem digit_not_ws {m : Char} (hd : m.isDigit = true) : isPyWS m = false := by
  by_contra hws
  simp only [Bool.not_eq_false] at hws
  unfold isPyWS at hws
  rcases Bool.or_eq_true_iff.mp hws with h | h
  case _ =>
    rcases Bool.or_eq_true_iff.mp h with h | h
    case _ =>
      rcases Bool.or_eq_true_iff.mp h with h | h
      case _ =>
        rcases Bool.or_eq_true_iff.mp h with h | h
        case _ =>
          rcases Bool.or_eq_true_iff.mp h with h | h <;>
            (rw [show m = _ from beq_iff_eq.mp h] at hd; simp [Char.isDigit] at hd)
        all_goals rw [show m = _ from beq_iff_eq.mp h] at hd; simp [Char.isDigit] at hd
      all_goals rw [show m = _ from beq_iff_eq.mp h] at hd; simp [Char.isDigit] at hd
    all_goals rw [show m = _ from beq_iff_eq.mp h] at hd; simp [Char.isDigit] at hd
  all_goals rw [show m = _ from beq_iff_eq.mp h] at hd; simp [Char.isDigit] at hd

theorem digit_ne_dot {m : Char} (hd : m.isDigit = true) : ¬ m = '.' := by
  intro he
  rw [he] at hd
  simp [Char.isDigit] at hd

theorem isListItem_strip (l : List Char) : isListItem (pyStrip l) = isListItem l := by
  unfold isListItem
  rw [pyStrip_idem]

/-- A stripped line recognized as a list item starts with a character that is neither a
period nor whitespace (`-`, `*`, or a digit). -/
theorem isListItem_head {t : List Char} (ht : pyStrip t = t) (h : isListItem t = true) :
    ∃ m ms, t = m :: ms ∧ ¬ m = '.' ∧ isPyWS m = false := by
  unfold isListItem at h
  rw [ht] at h
  split at h
  case _ =>
    exact ⟨_, _, rfl, by decide, by decide⟩
  case _ =>
    exact ⟨_, _, rfl, by decide, by decide⟩
  case _ =>
    cases t with
    | nil => simp [List.takeWhile] at h
    | cons m ms =>
      by_cases hd : m.isDigit
      · exact ⟨m, ms, rfl, digit_ne_dot hd, digit_not_ws hd⟩
      · rw [List.takeWhile_cons_of_neg (by simpa using hd)] at h
        simp at h

theorem convertListItem_ne_nil {x : List Char} (h : pyStrip x ≠ []) :
    convertListItem x ≠ [] := by
  unfold convertListItem
  split
  case _ t heq =>
    simp [replaceFirstStar]
  case _ =>
    exact h

theorem flatMap_eq_map {xs : List α} {f : α → List β} {g : α → β}
    (h : ∀ x ∈ xs, f x = [g x]) : xs.flatMap f = xs.map g := by
  induction xs with
  | nil => rfl
  | cons a t ih =>
    rw [List.flatMap_cons, List.map_cons, h a (List.mem_cons_self a t),
      ih (fun x hx => h x (List.mem_cons_of_mem a hx))]
    rfl

theorem dropTrailingEmpty_id {l : List (List Char)} (h : ∀ c ∈ l, c ≠ []) :
    dropTrailingEmpty l = l := by
  unfold dropTrailingEmpty
  rw [dropWhile_eq_self_of_head, List.reverse_reverse]
  intro c hc
  rw [List.head?_reverse] at hc
  have hm : c ∈ l := by
    obtain ⟨hne, rfl⟩ := List.mem_getLast?_eq_getLast (Option.mem_def.mpr hc)
    exact List.getLast_mem hne
  simpa [List.isEmpty_iff] using h c hm

theorem splitTextL_single {s : List Char} (h1 : splitParas s = [s]) (h2 : pyStrip s ≠ []) :
    splitTextL s = dropTrailingEmpty (processParagraph (pyStrip s)) := by
  unfold splitTextL
  rw [h1]
  have hemp : (pyStrip s).isEmpty = false := by
    simpa [List.isEmpty_iff] using h2
  simp [hemp]

theorem processParagraph_all_list {p : List Char}
    (hl : ∀ l ∈ splitNL p, pyStrip l ≠ [] ∧ isListItem l = true) :
    processParagraph p = (splitNL p).map
      (fun l => convertListItem
        (if allPeriods (splitNL p) then rstripDots (pyStrip l) else pyStrip l)) := by
  unfold processParagraph
  dsimp only
  have hfil : ((splitNL p).map pyStrip).filter (fun l => !l.isEmpty) = (splitNL p).map pyStrip := by
    apply List.filter_eq_self.mpr
    intro x hx
    obtain ⟨l, hlm, rfl⟩ := List.mem_map.mp hx
    simpa [List.isEmpty_iff] using (hl l hlm).1
  rw [hfil]
  have hfg : ∀ x ∈ (splitNL p).map pyStrip,
      lineChunks (allPeriods (splitNL p)) x =
      [convertListItem (if allPeriods (splitNL p) then rstripDots x else x)] := by
    intro x hx
    obtain ⟨l, hlm, rfl⟩ := List.mem_map.mp hx
    unfold lineChunks
    rw [isListItem_strip, (hl l hlm).2]
    rw [if_pos rfl]
  rw [flatMap_eq_map hfg, List.map_map]
  rfl

theorem processParagraph_chunks_ne_nil {p : List Char}
    (hl : ∀ l ∈ splitNL p, pyStrip l ≠ [] ∧ isListItem l = true) :
    ∀ c ∈ processParagraph p, c ≠ [] := by
  rw [processParagraph_all_list hl]
  intro c hc
  obtain ⟨l, hlm, rfl⟩ := List.mem_map.mp hc
  apply convertListItem_ne_nil
  by_cases hA : allPeriods (splitNL p)
  · rw [if_pos hA]
    have hLs : isListItem (pyStrip l) = true := by
      rw [isListItem_strip]
      exact (hl l hlm).2
    obtain ⟨m, ms, hms, hmd, hmw⟩ := isListItem_head (pyStrip_idem l) hLs
    have hm_in : m ∈ pyStrip l := by
      rw [hms]
      exact List.mem_cons_self m ms
    have h2 : m ∈ pyStrip (rstripDots (pyStrip l)) :=
      mem_pyStrip_of_ne (mem_rstripDots hm_in hmd) hmw
    exact List.ne_nil_of_mem h2
  · rw [if_neg hA, pyStrip_idem]
    exact (hl l hlm).1

theorem isListItem_of_strip_nil {l : List Char} (h : pyStrip l = []) :
    isListItem l = false := by
  unfold isListItem
  rw [h]
  rfl

theorem endsDot_iff (m : List Char) : endsDot m = true ↔ m.getLast? = some '.' := by
  unfold endsDot
  cases hG : m.getLast? with
  | none => simp
  | some c => simp [beq_iff_eq]

theorem lineChunks_flatMap (allP : Bool) :
    ∀ (lines : List (List Char)),
    ((lines.map pyStrip).filter (fun l => !l.isEmpty)).flatMap (lineChunks allP)
      = lines.flatMap (fun l =>
          if isListItem l = true then
            [convertListItem (if allP = true then rstripDots (pyStrip l) else pyStrip l)]
          else if (pyStrip l).isEmpty = true then []
          else if decimalStart (pyStrip l) = true then [pyStrip l]
          else splitSentL (pyStrip l)) := by
  intro lines
  induction lines with
  | nil => rfl
  | cons l t ih =>
    rw [List.map_cons, List.filter_cons, List.flatMap_cons]
    by_cases hb : (pyStrip l).isEmpty
    · simp only [hb, Bool.not_true, Bool.false_eq_true, if_false]
      rw [ih, isListItem_of_strip_nil (show pyStrip l = [] from by
        simpa [List.isEmpty_iff] using hb)]
      simp only [Bool.false_eq_true, if_false, hb, if_true]
      rfl
    · simp only [hb, Bool.not_false, if_true]
      rw [List.flatMap_cons, ih]
      congr 1
      unfold lineChunks
      rw [isListItem_strip]
      by_cases hL : isListItem l
      · rw [if_pos hL, if_pos hL]
      · rw [if_neg hL, if_neg hL]
        simp only [Bool.false_eq_true, if_false]

/-- C7: (i) for **every** paragraph — mixed prose/list/blank lines included, no
hypotheses — the per-paragraph loop of `split_text` emits each line matching the
list-item pattern as exactly one chunk, `convert_list_item` of the stripped line with
trailing periods stripped exactly when `allPeriods` holds of the paragraph's lines,
while non-item lines take the decimal/sentence path; (ii) `allPeriods` is, in the
claim's words, "every non-empty line of the paragraph ends with a period";
(iii) `convert_list_item` normalizes a leading `*` bullet to `-`; (iv) the claim's two
examples, plus two mixed-paragraph examples: in `"Intro.\n- a.\n* b."` every line ends
with a period so item periods are stripped, while in `"Intro\n- a.\n* b."` the prose
line does not, so periods are kept (and `*` is still normalized). -/
theorem c7_theorem :
    (∀ (p : List Char),
      processParagraph p = (splitNL p).flatMap (fun l =>
        if isListItem l = true then
          [convertListItem
            (if allPeriods (splitNL p) = true then rstripDots (pyStrip l) else pyStrip l)]
        else if (pyStrip l).isEmpty = true then []
        else if decimalStart (pyStrip l) = true then [pyStrip l]
        else splitSentL (pyStrip l))) ∧
    (∀ (lines : List (List Char)),
      allPeriods lines = true ↔
        ∀ l ∈ lines, pyStrip l ≠ [] → (pyStrip l).getLast? = some '.') ∧
    (∀ (x rest : List Char), pyStrip x = '*' :: rest → convertListItem x = '-' :: rest) ∧
    split_text "- one.\n- two." = ["- one", "- two"] ∧
    split_text "- one.\n- two" = ["- one.", "- two"] ∧
    split_text "Intro.\n- a.\n* b." = ["Intro.", "- a", "- b"] ∧
    split_text "Intro\n- a.\n* b." = ["Intro", "- a.", "- b."] := by
  refine ⟨?_, ?_, ?_, rfl, rfl, rfl, rfl⟩
  · intro p
    unfold processParagraph
    dsimp only
    exact lineChunks_flatMap (allPeriods (splitNL p)) (splitNL p)
  · intro lines
    unfold allPeriods
    rw [List.all_eq_true]
    constructor
    · intro h l hl hne
      rcases Bool.or_eq_true_iff.mp (h l hl) with h1 | h1
      · exact absurd (by simpa [List.isEmpty_iff] using h1) hne
      · exact (endsDot_iff (pyStrip l)).mp h1
    · intro h l hl
      by_cases hne : pyStrip l = []
      · simp [hne]
      · apply Bool.or_eq_true_iff.mpr
        exact Or.inr ((endsDot_iff (pyStrip l)).mpr (h l hl hne))
  · intro x rest h
    unfold convertListItem
    rw [h]
    show replaceFirstStar ('*' :: rest) = '-' :: rest
    simp [replaceFirstStar]

/-- C7 witness: the bullet-normalization part discharged at the concrete line
`"* two."`, and the hypothesis-free per-paragraph part instantiated at the concrete
mixed paragraph `"Intro.\n- a."`. -/
theorem c7_witness :
    (pyStrip ("* two.").data = '*' :: (" two.").data ∧
      convertListItem ("* two.").data = '-' :: (" two.").data) ∧
    processParagraph ("Intro.\n- a.").data = (splitNL ("Intro.\n- a.").data).flatMap
      (fun l =>
        if isListItem l = true then
          [convertListItem
            (if allPeriods (splitNL ("Intro.\n- a.").data) = true then rstripDots (pyStrip l)
             else pyStrip l)]
        else if (pyStrip l).isEmpty = true then []
        else if decimalStart (pyStrip l) = true then [pyStrip l]
        else splitSentL (pyStrip l)) :=
  ⟨⟨by decide, c7_theorem.2.2.1 ("* two.").data (" two.").data (by decide)⟩,
    c7_theorem.1 ("Intro.\n- a.").data⟩

/-! ## Claim C4: no silent character loss / decimal-marker handling -/

/-- C4 counterexample: `restore_decimals` replaces *every* `@` by `.`, so a literal `@`
in the input does not appear unchanged in the chunks: `split_text "a@b" = ["a.b"]`. -/
theorem c4_counterexample :
    split_text "a@b" = ["a.b"] ∧ '@' ∈ "a@b".data ∧
      ∀ chunk ∈ split_text "a@b", '@' ∉ chunk.data := by
  refine ⟨rfl, by decide, by decide⟩

theorem cview_cons (c : Char) (t : List Char) :
    cview (c :: t) = if isPyWS c then cview t else canonC c :: cview t := by
  by_cases h : isPyWS c <;> simp [cview, List.filter_cons, h]

theorem cview_append (a b : List Char) : cview (a ++ b) = cview a ++ cview b := by
  simp [cview, List.filter_append]

theorem cview_reverse (l : List Char) : cview l.reverse = (cview l).reverse := by
  simp [cview, List.filter_reverse, List.map_reverse]

theorem cview_dropWhileWS (l : List Char) : cview (l.dropWhile isPyWS) = cview l := by
  induction l with
  | nil => rfl
  | cons a t ih =>
    by_cases h : isPyWS a
    · rw [List.dropWhile_cons_of_pos h, ih, cview_cons, if_pos h]
    · rw [List.dropWhile_cons_of_neg h]

theorem cview_pyStrip (l : List Char) : cview (pyStrip l) = cview l := by
  unfold pyStrip
  rw [cview_reverse, cview_dropWhileWS, cview_reverse, List.reverse_reverse, cview_dropWhileWS]

theorem cview_restoreD (l : List Char) : cview (restoreD l) = cview l := by
  induction l with
  | nil => rfl
  | cons a t ih =>
    show cview ((if a == '@' then '.' else a) :: restoreD t) = cview (a :: t)
    by_cases h : a == '@'
    · rw [if_pos h, cview_cons, cview_cons, ih]
      rw [show a = '@' from beq_iff_eq.mp h]
      rfl
    · rw [if_neg h, cview_cons, cview_cons, ih]

theorem dropWhile_eq_nil_all {p : α → Bool} {l : List α} (h : l.dropWhile p = []) :
    ∀ c ∈ l, p c = true := by
  induction l with
  | nil => intro c hc; cases hc
  | cons a t ih =>
    intro c hc
    by_cases hp : p a
    · rw [List.dropWhile_cons_of_pos hp] at h
      rcases List.mem_cons.mp hc with rfl | hc2
      · exact hp
      · exact ih h c hc2
    · rw [List.dropWhile_cons_of_neg hp] at h
      cases h

theorem cview_nil_of_strip_nil {l : List Char} (h : pyStrip l = []) : cview l = [] := by
  have hA : l.dropWhile isPyWS = [] := by
    unfold pyStrip at h
    rw [List.reverse_eq_nil_iff] at h
    by_cases hA : l.dropWhile isPyWS = []
    · exact hA
    · exfalso
      obtain ⟨a, t, ht⟩ := List.exists_cons_of_ne_nil hA
      have hall := dropWhile_eq_nil_all h
      have hmem : a ∈ (l.dropWhile isPyWS).reverse := by
        rw [ht]; simp
      have hws : isPyWS a = true := hall a hmem
      have := head?_dropWhile_false isPyWS l a (by rw [ht]; rfl)
      rw [this] at hws
      cases hws
  have hall : ∀ c ∈ l, isPyWS c = true := dropWhile_eq_nil_all hA
  unfold cview
  rw [List.filter_eq_nil_iff.mpr (fun c hc => by simp [hall c hc])]
  rfl

theorem cview_protectGo (st : PState) (l : List Char) :
    cview (protectGo st l) = cview l := by
  induction st, l using protectGo.induct with
  | case1 st d rest hcond ih =>
    rw [protectGo, if_pos hcond, cview_cons, cview_cons, ih]
    rfl
  | case2 st d rest hcond ih =>
    rw [protectGo, if_neg hcond, cview_cons, cview_cons, ih]
  | case3 st c cs hne hdig ih =>
    rw [protectGo]
    · rw [if_pos hdig, cview_cons, cview_cons, ih]
    · exact hne
  | case4 st c cs hne hdig ih =>
    rw [protectGo]
    · rw [if_neg hdig, cview_cons, cview_cons, ih]
    · exact hne
  | case5 st => rfl

theorem punct_not_ws {c : Char} (h : isPunctC c = true) : isPyWS c = false := by
  unfold isPunctC at h
  rcases Bool.or_eq_true_iff.mp h with h2 | h2
  · rcases Bool.or_eq_true_iff.mp h2 with h3 | h3 <;>
      (rw [show c = _ from beq_iff_eq.mp h3]; decide)
  · rw [show c = _ from beq_iff_eq.mp h2]; decide

theorem cview_spGo :
    ∀ (ws : Bool) (acc l : List Char), (ws = true → acc = []) →
    cview (List.flatten (spGo ws acc l)) = cview (acc.reverse ++ l) := by
  intro ws acc l
  induction ws, acc, l using spGo.induct with
  | case1 acc =>
    intro hws
    rw [hws rfl]
    rfl
  | case2 ws acc hws =>
    intro _
    have hw : ws = false := Bool.not_eq_true ws |>.mp hws
    subst hw
    simp [spGo, cview_append]
  | case3 ws acc c cs hcond ih =>
    intro hws
    have hw : ws = true := by
      cases ws
      · simp at hcond
      · rfl
    have hcws : isPyWS c = true := by
      rw [hw] at hcond
      simpa using hcond
    have hstep : spGo ws acc (c :: cs) = spGo true [] cs := by
      rw [spGo.eq_def]
      dsimp only
      rw [if_pos hcond]
    rw [hstep, ih (fun _ => rfl), hws hw]
    simp [cview_cons, hcws]
  | case4 ws acc c hcond1 hcond2 =>
    intro _
    have hstep : spGo ws acc [c] = [acc.reverse, [c], []] := by
      rw [spGo.eq_2, if_neg hcond1, if_pos hcond2]
    rw [hstep]
    simp [cview_append]
  | case5 ws acc c hcond1 hcond2 c1 cs hc1 ih =>
    intro _
    have hstep : spGo ws acc (c :: c1 :: cs) =
        acc.reverse :: [c] :: spGo true [] (c1 :: cs) := by
      rw [spGo.eq_def]
      dsimp only
      rw [if_neg hcond1, if_pos hcond2, if_pos hc1]
    rw [hstep]
    have hnw : isPyWS c = false := punct_not_ws hcond2
    simp only [List.flatten_cons, cview_append]
    rw [ih (fun _ => rfl)]
    simp [cview_cons, hnw, cview]
  | case6 ws acc c hcond1 hcond2 c1 cs hc1 ih =>
    intro _
    have hstep : spGo ws acc (c :: c1 :: cs) = spGo false (c :: acc) (c1 :: cs) := by
      rw [spGo.eq_def]
      dsimp only
      rw [if_neg hcond1, if_pos hcond2, if_neg (by simpa using hc1)]
    rw [hstep, ih (fun h => by cases h)]
    rw [List.reverse_cons, List.append_assoc]
    rfl
  | case7 ws acc c cs hcond1 hcond2 ih =>
    intro _
    have hstep : spGo ws acc (c :: cs) = spGo false (c :: acc) cs := by
      rw [spGo.eq_def]
      dsimp only
      rw [if_neg hcond1]
      cases cs with
      | nil => rw [if_neg hcond2]
      | cons d t =>
        dsimp only
        rw [if_neg hcond2]
    rw [hstep, ih (fun h => by cases h)]
    rw [List.reverse_cons, List.append_assoc]
    rfl

theorem cview_assemble (parts : List (List Char)) :
    cview (List.flatten (assemble parts)) = cview (List.flatten parts) := by
  induction parts using assemble.induct with
  | case1 => rfl
  | case2 p rest hp ih =>
    have hstep : assemble (p :: rest) = assemble rest := by
      rw [assemble.eq_def]
      dsimp only
      rw [if_pos hp]
    rw [hstep, ih, List.flatten_cons, cview_append,
      cview_nil_of_strip_nil (show pyStrip p = [] from by simpa [List.isEmpty_iff] using hp)]
    rfl
  | case3 p hp =>
    have hstep : assemble [p] = [restoreD (pyStrip p)] := by
      rw [assemble.eq_def]
      dsimp only
      rw [if_neg hp]
    rw [hstep]
    simp only [List.flatten_cons, List.flatten_nil, List.append_nil]
    rw [cview_restoreD, cview_pyStrip]
  | case4 p hp q rest2 ih =>
    have hstep : assemble (p :: q :: rest2) =
        (restoreD (pyStrip p) ++ q) :: assemble rest2 := by
      rw [assemble.eq_def]
      dsimp only
      rw [if_neg hp]
    rw [hstep]
    simp only [List.flatten_cons, cview_append, ih]
    rw [cview_restoreD, cview_pyStrip]
    simp [List.append_assoc]

theorem cview_filter_blank (l : List (List Char)) :
    cview (List.flatten (l.filter (fun s => !(pyStrip s).isEmpty))) =
      cview (List.flatten l) := by
  induction l with
  | nil => rfl
  | cons a t ih =>
    by_cases h : (pyStrip a).isEmpty
    · rw [List.filter_cons]
      simp only [h, Bool.not_true, Bool.false_eq_true, if_false]
      rw [ih, List.flatten_cons, cview_append,
        cview_nil_of_strip_nil (show pyStrip a = [] from by simpa [List.isEmpty_iff] using h)]
      rfl
    · rw [List.filter_cons]
      simp only [h, Bool.not_false, if_true]
      rw [List.flatten_cons, List.flatten_cons, cview_append, cview_append, ih]

/-- Source: `split_sentences` loses no non-whitespace character up to the `.`/`@`
identification. -/
theorem cview_splitSentL (l : List Char) :
    cview (List.flatten (splitSentL l)) = cview l := by
  unfold splitSentL
  rw [cview_filter_blank, cview_assemble,
    cview_spGo false [] (protectD l) (fun h => by cases h)]
  show cview (protectGo .fresh l) = cview l
  exact cview_protectGo _ _

theorem cview_lineChunks {allP : Bool} {line : List Char} (h : isListItem line = false) :
    cview (List.flatten (lineChunks allP line)) = cview line := by
  unfold lineChunks
  simp only [h, Bool.false_eq_true, if_false]
  by_cases hd : decimalStart line
  · simp only [hd, if_true]
    simp [cview_append]
  · simp only [hd, Bool.false_eq_true, if_false]
    exact cview_splitSentL line

theorem cview_splitNLGo : ∀ (l acc : List Char),
    cview (List.flatten (splitNLGo acc l)) = cview (acc.reverse ++ l) := by
  intro l
  induction l with
  | nil =>
    intro acc
    simp [splitNLGo, cview_append]
  | cons c cs ih =>
    intro acc
    by_cases h : c == '\n'
    · simp only [splitNLGo, h, if_true]
      have hc : isPyWS c = true := by
        rw [show c = '\n' from beq_iff_eq.mp h]
        decide
      rw [List.flatten_cons, cview_append, ih []]
      conv_rhs => rw [cview_append, cview_cons, if_pos hc]
      rfl
    · simp only [splitNLGo, h, Bool.false_eq_true, if_false]
      rw [ih (c :: acc), List.reverse_cons, List.append_assoc]
      rfl

theorem cview_flatMap {xs : List (List Char)} {f : List Char → List (List Char)}
    (h : ∀ x ∈ xs, cview (List.flatten (f x)) = cview x) :
    cview (List.flatten (xs.flatMap f)) = cview (List.flatten xs) := by
  induction xs with
  | nil => rfl
  | cons a t ih =>
    rw [List.flatMap_cons, List.flatten_append, List.flatten_cons, cview_append, cview_append]
    rw [h a (List.mem_cons_self a t), ih (fun x hx => h x (List.mem_cons_of_mem a hx))]

theorem flatten_filter_nonempty (l : List (List Char)) :
    List.flatten (l.filter (fun x => !x.isEmpty)) = List.flatten l := by
  induction l with
  | nil => rfl
  | cons a t ih =>
    by_cases h : a.isEmpty
    · have ha : a = [] := by simpa [List.isEmpty_iff] using h
      rw [List.filter_cons]
      simp only [h, Bool.not_true, Bool.false_eq_true, if_false]
      rw [ih, List.flatten_cons, ha]
      rfl
    · rw [List.filter_cons]
      simp only [h, Bool.not_false, if_true]
      rw [List.flatten_cons, List.flatten_cons, ih]

theorem cview_flatten_map_strip (l : List (List Char)) :
    cview (List.flatten (l.map pyStrip)) = cview (List.flatten l) := by
  induction l with
  | nil => rfl
  | cons a t ih =>
    rw [List.map_cons, List.flatten_cons, List.flatten_cons, cview_append, cview_append,
      cview_pyStrip, ih]

/-- A paragraph with no list-item lines loses no non-whitespace character (up to the
`.`/`@` identification). -/
theorem cview_processParagraph {p : List Char}
    (h : ∀ l ∈ splitNL p, isListItem l = false) :
    cview (List.flatten (processParagraph p)) = cview p := by
  unfold processParagraph
  dsimp only
  rw [cview_flatMap]
  · rw [flatten_filter_nonempty, cview_flatten_map_strip]
    have := cview_splitNLGo p []
    simpa using this
  · intro x hx
    have hx2 : x ∈ (splitNL p).map pyStrip := List.mem_of_mem_filter hx
    obtain ⟨l, hl, rfl⟩ := List.mem_map.mp hx2
    apply cview_lineChunks
    rw [isListItem_strip]
    exact h l hl

theorem flatten_all_nil {m : List (List Char)} (h : ∀ x ∈ m, x = []) :
    List.flatten m = [] := by
  induction m with
  | nil => rfl
  | cons a t ih =>
    rw [List.flatten_cons, h a (List.mem_cons_self a t),
      ih (fun x hx => h x (List.mem_cons_of_mem a hx))]
    rfl

theorem flatten_dropTrailingEmpty (l : List (List Char)) :
    List.flatten (dropTrailingEmpty l) = List.flatten l := by
  unfold dropTrailingEmpty
  have hta : ∀ (m : List (List Char)),
      m.takeWhile List.isEmpty ++ m.dropWhile List.isEmpty = m := by
    intro m
    exact List.takeWhile_append_dropWhile List.isEmpty m
  have hnil : List.flatten ((l.reverse.takeWhile List.isEmpty).reverse) = [] := by
    apply flatten_all_nil
    intro x hx
    have hx2 : x ∈ l.reverse.takeWhile List.isEmpty := List.mem_reverse.mp hx
    have := List.mem_takeWhile_imp hx2
    simpa [List.isEmpty_iff] using this
  conv_rhs => rw [← List.reverse_reverse l, ← hta l.reverse]
  rw [List.reverse_append, List.flatten_append, hnil, List.append_nil]

/-- C4 amended: for a single-paragraph input with no list-item lines, concatenating the
chunks of `split_text` preserves the sequence of non-whitespace characters of the input
*up to interchanging `.` and `@`*: a literal `@` is turned into `.` by
`restore_decimals`, and conversely the protection marker `@` can survive into the
output in place of a decimal's `.` when a line begins with sentence-terminal
punctuation (e.g. `split_text "! 3.14 x" = ["!3@14 x"]`); no other character is lost
or altered, and list items may additionally lose trailing periods (claim C7). -/
theorem c4_theorem (s : String)
    (h1 : splitParas s.data = [s.data])
    (h2 : pyStrip s.data ≠ [])
    (h3 : ∀ l ∈ splitNL (pyStrip s.data), isListItem l = false) :
    cview (List.flatten (splitTextL s.data)) = cview s.data := by
  rw [splitTextL_single h1 h2, flatten_dropTrailingEmpty, cview_processParagraph h3,
    cview_pyStrip]

/-- C4 witness: the amended no-character-loss property at a concrete input containing a
decimal, a literal `@` and two sentences. -/
theorem c4_witness :
    cview (List.flatten (splitTextL ("a@b is 3.14 ok. Yes!").data)) =
      cview ("a@b is 3.14 ok. Yes!").data :=
  c4_theorem "a@b is 3.14 ok. Yes!" (by decide) (by decide) (by decide)
